import Mathlib

/-!
Shallow embedding of the "drunken diver" randomart walker
(src/src/lib.rs and src/src/minutiae.rs).

The Rust const generic `WIDTH : usize` becomes an explicit `Nat` parameter
`W`; the fixed-size array `[Note; WIDTH]` becomes a `List Note` (its length
is `W` at every reachable state, proved below); `u8` bytes become `Nat`
(all bit extractions in the source are expressed with `%` and `/`, and the
source masks with `& 0b111` exactly where `% 8` appears here).
-/

namespace DrunkenDiver

/-- Direction enum from src/minutiae.rs. -/
inductive Direction where
  | Right
  | Left
  deriving DecidableEq, Repr

/-- Style enum from src/minutiae.rs: eight rendering selectors. -/
inductive Style where
  | Style0 | Style1 | Style2 | Style3
  | Style4 | Style5 | Style6 | Style7
  deriving DecidableEq, Repr

/-- Note enum from src/minutiae.rs: an empty cell or a direction+style mark. -/
inductive Note where
  | Empty
  | Full (d : Direction) (s : Style)
  deriving DecidableEq, Repr

/-- U3::from in src/minutiae.rs: keep the low 3 bits (`byte & 0b111`). -/
def u3OfByte (b : Nat) : Nat := b % 8

/-- Style::from(U3) in src/minutiae.rs.  The argument is always the result
of `u3OfByte`, hence `< 8`; the final catch-all models the source's
unreachable arm. -/
def Style.ofU3 : Nat → Style
  | 0 => Style.Style0
  | 1 => Style.Style1
  | 2 => Style.Style2
  | 3 => Style.Style3
  | 4 => Style.Style4
  | 5 => Style.Style5
  | 6 => Style.Style6
  | 7 => Style.Style7
  | _ + 8 => Style.Style0

/-- Direction::from(bool) in src/minutiae.rs: true gives Right. -/
def directionOfBool (b : Bool) : Direction :=
  if b then Direction.Right else Direction.Left

/-- DSPair::from(u8) in src/minutiae.rs.  Note the polarity in the source:
instruction 1 tests `byte & 0b1 == 0` (bit 0 clear gives Right) and
instruction 2 tests `(byte >> 4) & 0b1 == 0` (bit 4 clear gives Right).
`byte >> 1 & 0b111` is `(byte / 2) % 8` and `byte >> 5` is `byte / 32`. -/
def DSPair.ofByte (byte : Nat) : (Direction × Style) × (Direction × Style) :=
  ((directionOfBool (byte % 2 == 0), Style.ofU3 (u3OfByte ((byte / 2) % 8))),
   (directionOfBool ((byte / 16) % 2 == 0), Style.ofU3 (u3OfByte (byte / 32))))

/-- Note::fmt in src/minutiae.rs: the glyph for each note. -/
def Note.display : Note → Char
  | Note.Empty => ' '
  | Note.Full Direction.Right Style.Style0 => '>'
  | Note.Full Direction.Right Style.Style1 => '.'
  | Note.Full Direction.Right Style.Style2 => '*'
  | Note.Full Direction.Right Style.Style3 => 'o'
  | Note.Full Direction.Right Style.Style4 => 'x'
  | Note.Full Direction.Right Style.Style5 => ')'
  | Note.Full Direction.Right Style.Style6 => '+'
  | Note.Full Direction.Right Style.Style7 => 'U'
  | Note.Full Direction.Left Style.Style0 => '<'
  | Note.Full Direction.Left Style.Style1 => '~'
  | Note.Full Direction.Left Style.Style2 => '='
  | Note.Full Direction.Left Style.Style3 => '_'
  | Note.Full Direction.Left Style.Style4 => '!'
  | Note.Full Direction.Left Style.Style5 => '('
  | Note.Full Direction.Left Style.Style6 => 'T'
  | Note.Full Direction.Left Style.Style7 => 'A'

/-- Row from src/lib.rs: the note array and the diver's column.
The width is carried by the length of `notes`. -/
structure Row where
  notes : List Note
  loc : Nat
  deriving DecidableEq, Repr

/-- Row::MIN_MARGIN in src/lib.rs: `WIDTH / 8`. -/
def minMargin (W : Nat) : Nat := W / 8

/-- Row::new in src/lib.rs: all-empty notes, cursor at `loc`. -/
def Row.new (W loc : Nat) : Row := ⟨List.replicate W Note.Empty, loc⟩

/-- Row::set_note in src/lib.rs: `self.0[self.1] = note`.  Rust indexing
panics when the cursor is out of bounds (List.set is then a no-op); the
cursor is in bounds at every reachable state, see the invariant theorems. -/
def Row.set_note (r : Row) (n : Note) : Row := ⟨r.notes.set r.loc n, r.loc⟩

/-- Row::is_note_empty in src/lib.rs: `self.0[self.1] == Note::Empty`.
Out-of-bounds reads (which would panic in Rust) default to Empty here;
the cursor is in bounds at every reachable state. -/
def Row.is_note_empty (r : Row) : Bool :=
  decide (r.notes.getD r.loc Note.Empty = Note.Empty)

/-- Row::is_empty in src/lib.rs: the whole array equals EMPTY_ARR. -/
def Row.is_empty (W : Nat) (r : Row) : Bool :=
  decide (r.notes = List.replicate W Note.Empty)

/-- Row::is_rightmost in src/lib.rs: `self.1 + 1 >= WIDTH`. -/
def Row.is_rightmost (W : Nat) (r : Row) : Bool := decide (r.loc + 1 ≥ W)

/-- Row::is_leftmost in src/lib.rs: `self.1 <= 0`. -/
def Row.is_leftmost (r : Row) : Bool := decide (r.loc ≤ 0)

/-- Row::go_rightmost in src/lib.rs: `WIDTH.saturating_sub(1)`. -/
def Row.go_rightmost (W : Nat) (r : Row) : Row := { r with loc := W - 1 }

/-- Row::go_leftmost in src/lib.rs. -/
def Row.go_leftmost (r : Row) : Row := { r with loc := 0 }

/-- Row::go_right_unchecked in src/lib.rs. -/
def Row.go_right_unchecked (r : Row) : Row := { r with loc := r.loc + 1 }

/-- Row::go_left_unchecked in src/lib.rs: `self.1 -= 1` (only ever called
when not leftmost, so the Nat subtraction agrees with usize). -/
def Row.go_left_unchecked (r : Row) : Row := { r with loc := r.loc - 1 }

/-- Row::go_right_wrapping in src/lib.rs. -/
def Row.go_right_wrapping (W : Nat) (r : Row) : Row :=
  if r.is_rightmost W then r.go_leftmost else r.go_right_unchecked

/-- Row::go_left_wrapping in src/lib.rs. -/
def Row.go_left_wrapping (W : Nat) (r : Row) : Row :=
  if r.is_leftmost then r.go_rightmost W else r.go_left_unchecked

/-- The `for _ in 0..MIN_MARGIN` loop of Row::journey_right in src/lib.rs.
The Bool is true when the loop returned early (settled on an empty cell,
journey result `false`), false when all iterations ran. -/
def Row.forcedRight (W : Nat) : Nat → Row → Row × Bool
  | 0, r => (r, false)
  | n + 1, r =>
    if r.is_note_empty then (r, true)
    else Row.forcedRight W n (r.go_right_wrapping W)

/-- The margin loop of Row::journey_left in src/lib.rs. -/
def Row.forcedLeft (W : Nat) : Nat → Row → Row × Bool
  | 0, r => (r, false)
  | n + 1, r =>
    if r.is_note_empty then (r, true)
    else Row.forcedLeft W n (r.go_left_wrapping W)

/-- The trailing `loop` of Row::journey_right in src/lib.rs.  The Bool is
the journey's return value: true means descend, false means settled. -/
def Row.freeRight (W : Nat) (r : Row) : Row × Bool :=
  if r.is_note_empty then (r, false)
  else if r.is_rightmost W then (r, true)
  else Row.freeRight W r.go_right_unchecked
termination_by r.notes.length - r.loc
decreasing_by
  rename_i h1 h2
  simp only [Row.is_note_empty, decide_eq_true_eq] at h1
  have hlt : r.loc < r.notes.length := by
    by_contra hge
    exact h1 (List.getD_eq_default _ _ (Nat.le_of_not_lt hge))
  simp only [Row.go_right_unchecked]
  omega

/-- The trailing `loop` of Row::journey_left in src/lib.rs. -/
def Row.freeLeft (W : Nat) (r : Row) : Row × Bool :=
  if r.is_note_empty then (r, false)
  else if r.is_leftmost then (r, true)
  else Row.freeLeft W r.go_left_unchecked
termination_by r.loc
decreasing_by
  rename_i h1 h2
  simp only [Row.is_leftmost, decide_eq_true_eq] at h2
  simp only [Row.go_left_unchecked]
  omega

/-- Row::journey_right in src/lib.rs: the margin loop, then (unless it
settled) the free loop. -/
def Row.journey_right (W : Nat) (r : Row) : Row × Bool :=
  match Row.forcedRight W (minMargin W) r with
  | (r1, true) => (r1, false)
  | (r1, false) => Row.freeRight W r1

/-- Row::journey_left in src/lib.rs. -/
def Row.journey_left (W : Nat) (r : Row) : Row × Bool :=
  match Row.forcedLeft W (minMargin W) r with
  | (r1, true) => (r1, false)
  | (r1, false) => Row.freeLeft W r1

/-- The direction dispatch in Dive::settle in src/lib.rs. -/
def Row.journeyOf (W : Nat) (d : Direction) (r : Row) : Row × Bool :=
  match d with
  | Direction.Right => r.journey_right W
  | Direction.Left => r.journey_left W

/-!
Spec-side movement rule.  The following `Spec.*` definitions transcribe
the movement rule as the specification words it (one wrapping step in the
requested direction; "rightmost column for Right, column 0 for Left" as
the edge test; forced-advance phase run `margin = WIDTH/8` times, then the
free-advance phase).  They are compared with the code-side journeys in the
C2 theorem.
-/

/-- One advance "wrapping around to the opposite edge when stepping past
the boundary", as the spec words it. -/
def Spec.wrapStep (W : Nat) (d : Direction) (r : Row) : Row :=
  match d with
  | Direction.Right => { r with loc := if r.loc = W - 1 then 0 else r.loc + 1 }
  | Direction.Left => { r with loc := if r.loc = 0 then W - 1 else r.loc - 1 }

/-- "the cursor is at the row's edge in the direction of travel —
rightmost column for Right, column 0 for Left". -/
def Spec.atEdge (W : Nat) (d : Direction) (r : Row) : Bool :=
  match d with
  | Direction.Right => decide (r.loc = W - 1)
  | Direction.Left => decide (r.loc = 0)

/-- Spec forced-advance phase: repeat the given number of times — if the
note at the cursor is Empty, settle (Bool true = settled early);
otherwise advance one wrapping step. -/
def Spec.forced (W : Nat) (d : Direction) : Nat → Row → Row × Bool
  | 0, r => (r, false)
  | n + 1, r =>
    if r.is_note_empty then (r, true)
    else Spec.forced W d n (Spec.wrapStep W d r)

/-- Spec free-advance phase: settle on Empty; descend (Bool true) at the
edge in the direction of travel; otherwise advance one step, no wrap. -/
def Spec.free (W : Nat) (d : Direction) (r : Row) : Row × Bool :=
  if r.is_note_empty then (r, false)
  else if Spec.atEdge W d r then (r, true)
  else
    Spec.free W d
      (match d with
       | Direction.Right => { r with loc := r.loc + 1 }
       | Direction.Left => { r with loc := r.loc - 1 })
termination_by match d with
  | Direction.Right => r.notes.length - r.loc
  | Direction.Left => r.loc
decreasing_by
  rename_i h1 h2
  simp only [Row.is_note_empty, decide_eq_true_eq] at h1
  have hlt : r.loc < r.notes.length := by
    by_contra hge
    exact h1 (List.getD_eq_default _ _ (Nat.le_of_not_lt hge))
  cases d with
  | Right =>
    simp only [Spec.atEdge, decide_eq_true_eq] at h2
    simp only []
    omega
  | Left =>
    simp only [Spec.atEdge, decide_eq_true_eq] at h2
    simp only []
    omega

/-- The spec's movement rule: forced-advance phase `margin = WIDTH/8`
times, then (only if no Empty cell was found) the free-advance phase. -/
def Spec.journey (W : Nat) (d : Direction) (r : Row) : Row × Bool :=
  match Spec.forced W d (W / 8) r with
  | (r1, true) => (r1, false)
  | (r1, false) => Spec.free W d r1

/-- Dive from src/lib.rs: the remaining byte source, the live row, and the
optional buffered instruction. -/
structure Dive where
  iter : List Nat
  row : Row
  buffered : Option (Direction × Style)
  deriving DecidableEq, Repr

/-- The From impl for Dive in src/lib.rs: row of width `W` with cursor
`WIDTH/2`, nothing buffered. -/
def Dive.fromBytes (W : Nat) (bytes : List Nat) : Dive :=
  ⟨bytes, Row.new W (W / 2), none⟩

/-- Dive::go followed by Dive::settle in src/lib.rs, restricted to the
row they operate on (settle touches only `self.row`): write
`Full(d, s)` at the cursor, run the journey; on descent replace the live
row by `Row::new(home)` (home = the cursor the note was written at, read
before the journey moves it) and emit the old row. -/
def Row.goInstr (W : Nat) (r : Row) (d : Direction) (s : Style) : Option Row × Row :=
  let home := r.loc
  let written := r.set_note (Note.Full d s)
  let jr := written.journeyOf W d
  if jr.2 then (some jr.1, Row.new W home) else (none, jr.1)

/-- Dive::go in src/lib.rs lifted to the full Dive state: `iter` and
`buffered` are untouched. -/
def Dive.go (W : Nat) (dv : Dive) (d : Direction) (s : Style) : Option Row × Dive :=
  match Row.goInstr W dv.row d s with
  | (out, r) => (out, ⟨dv.iter, r, dv.buffered⟩)

/-- The `while let Some(byte) = self.iter.next()` loop of Dive::next in
src/lib.rs, together with the end-of-input epilogue: decode the byte, go
on the first instruction (buffering the second and yielding on descent),
else go on the second (yielding on descent), else loop; when the source
is exhausted, yield nothing if the live row is still fully empty, and
otherwise yield the live row, replacing it by a fresh row at the same
cursor. -/
def Dive.nextLoop (W : Nat) : List Nat → Row → Option Row × Dive
  | [], row =>
    if row.is_empty W then (none, ⟨[], row, none⟩)
    else (some row, ⟨[], Row.new W row.loc, none⟩)
  | byte :: rest, row =>
    let p := DSPair.ofByte byte
    match Row.goInstr W row p.1.1 p.1.2 with
    | (some out, newRow) => (some out, ⟨rest, newRow, some p.2⟩)
    | (none, row1) =>
      match Row.goInstr W row1 p.2.1 p.2.2 with
      | (some out, newRow) => (some out, ⟨rest, newRow, none⟩)
      | (none, row2) => Dive.nextLoop W rest row2

/-- Dive::next in src/lib.rs: `go` on the buffered instruction first if
present (taking it out of the buffer), then the byte loop. -/
def Dive.next (W : Nat) (dv : Dive) : Option Row × Dive :=
  match dv.buffered with
  | some (d, s) =>
    match Row.goInstr W dv.row d s with
    | (some out, newRow) => (some out, ⟨dv.iter, newRow, none⟩)
    | (none, row1) => Dive.nextLoop W dv.iter row1
  | none => Dive.nextLoop W dv.iter dv.row

/-- Termination measure for draining the iterator: two units per unread
byte, one for a buffered instruction, one for a non-empty live row. -/
def Dive.mu (W : Nat) (dv : Dive) : Nat :=
  2 * dv.iter.length + (if dv.buffered.isSome then 1 else 0) +
    (if dv.row.is_empty W then 0 else 1)

/-- The state after `n` calls of Dive::next. -/
def iterState (W : Nat) : Nat → Dive → Dive
  | 0, dv => dv
  | n + 1, dv => iterState W n (Dive.next W dv).2

theorem is_empty_new (W loc : Nat) : (Row.new W loc).is_empty W = true := by
  simp [Row.new, Row.is_empty]

theorem goInstr_some_row (W : Nat) (r : Row) (d : Direction) (s : Style)
    (out newRow : Row) (h : Row.goInstr W r d s = (some out, newRow)) :
    newRow = Row.new W r.loc := by
  simp only [Row.goInstr] at h
  split at h
  · cases h
    rfl
  · simp at h

theorem nextLoop_some_mu (W : Nat) :
    ∀ bytes row out dv2, Dive.nextLoop W bytes row = (some out, dv2) →
      Dive.mu W dv2 ≤ 2 * bytes.length - 1 := by
  intro bytes
  induction bytes with
  | nil =>
    intro row out dv2 h
    rw [Dive.nextLoop] at h
    split at h
    · exact absurd h (by simp)
    · cases h
      simp [Dive.mu, is_empty_new]
  | cons b rest ih =>
    intro row out dv2 h
    rw [Dive.nextLoop] at h
    split at h
    · rename_i out1 newRow heq
      cases h
      have hnew := goInstr_some_row W row _ _ _ _ heq
      subst hnew
      simp [Dive.mu, is_empty_new]
      omega
    · rename_i row1 heq
      split at h
      · rename_i out2 newRow2 heq2
        cases h
        have hnew := goInstr_some_row W row1 _ _ _ _ heq2
        subst hnew
        simp [Dive.mu, is_empty_new]
        omega
      · have := ih _ out dv2 h
        simp only [List.length_cons]
        omega

theorem next_some_mu (W : Nat) (dv : Dive) (out : Row) (dv2 : Dive)
    (h : Dive.next W dv = (some out, dv2)) : Dive.mu W dv2 < Dive.mu W dv := by
  rcases dv with ⟨iter, row, buffered⟩
  cases buffered with
  | none =>
    simp only [Dive.next] at h
    have hb := nextLoop_some_mu W iter row out dv2 h
    cases iter with
    | nil =>
      rw [Dive.nextLoop] at h
      split at h
      · exact absurd h (by simp)
      · rename_i hrow
        cases h
        simp [Dive.mu, is_empty_new, hrow]
    | cons b rest =>
      by_cases he : row.is_empty W <;>
        simp only [Dive.mu, List.length_cons, he, if_true, if_false,
          Bool.false_eq_true, Option.isSome_none] at hb ⊢ <;> omega
  | some ds =>
    rcases ds with ⟨d, s⟩
    simp only [Dive.next] at h
    split at h
    · rename_i out1 newRow heq
      cases h
      have hnew := goInstr_some_row W row d s _ _ heq
      subst hnew
      by_cases he : row.is_empty W <;>
        simp [Dive.mu, is_empty_new, he] <;> omega
    · rename_i row1 heq
      have hb := nextLoop_some_mu W iter row1 out dv2 h
      by_cases he : row.is_empty W <;>
        simp only [Dive.mu, he, if_true, if_false, Bool.false_eq_true,
          Option.isSome_some] at hb ⊢ <;> omega

/-- The `it.collect()` in the From impl for Route in src/lib.rs: drain
Dive::next until it yields None, collecting the produced rows in order. -/
def Dive.drain (W : Nat) (dv : Dive) : List Row :=
  match h : Dive.next W dv with
  | (none, _) => []
  | (some out, dv2) => out :: Dive.drain W dv2
termination_by Dive.mu W dv
decreasing_by exact next_some_mu W dv out dv2 h

/-- Route from src/lib.rs: the completed rows (oldest first) and the
closing cursor.  The source field `end` is a Lean keyword, hence
`ending` here. -/
structure Route where
  route : List Row
  ending : Nat
  deriving DecidableEq, Repr

/-- The From impl for Route in src/lib.rs: collect the Dive, take the
last row's cursor (or `WIDTH/2` if no row was produced). -/
def Route.ofDive (W : Nat) (dv : Dive) : Route :=
  let vec := Dive.drain W dv
  ⟨vec, ((vec.getLast?).map Row.loc).getD (W / 2)⟩

/-- The top border of the Route Display impl in src/lib.rs:
`+`, `(WIDTH/2).saturating_sub(1)` dashes, `v`, `WIDTH - WIDTH/2` dashes,
`+`.  Each rendered line is modelled as a list of characters (the source
writes a newline after each line). -/
def topBorder (W : Nat) : List Char :=
  '+' :: (List.replicate (W / 2 - 1) '-' ++ 'v' :: (List.replicate (W - W / 2) '-' ++ ['+']))

/-- The bottom border of the Route Display impl in src/lib.rs:
`+`, `end` dashes, `v`, `(WIDTH - end).saturating_sub(1)` dashes, `+`. -/
def bottomBorder (W e : Nat) : List Char :=
  '+' :: (List.replicate e '-' ++ 'v' :: (List.replicate (W - e - 1) '-' ++ ['+']))

/-- The Row Display impl in src/lib.rs: one glyph per note, in order. -/
def Row.render (r : Row) : List Char := r.notes.map Note.display

/-- The Route Display impl in src/lib.rs: top border, then each row
wrapped in `|` ... `|`, then the bottom border, as a list of lines. -/
def Route.render (W : Nat) (rt : Route) : List (List Char) :=
  topBorder W :: (rt.route.map (fun r => '|' :: (r.render ++ ['|'])) ++ [bottomBorder W rt.ending])

/-!
### Journey helper lemmas

The journeys move the cursor but never touch the notes; started inside
the row they stay inside; and whenever they report "no descent" the
cursor has settled on an Empty cell.
-/

theorem go_right_wrapping_notes (W : Nat) (r : Row) :
    (r.go_right_wrapping W).notes = r.notes := by
  unfold Row.go_right_wrapping Row.go_leftmost Row.go_right_unchecked
  split <;> rfl

theorem go_left_wrapping_notes (W : Nat) (r : Row) :
    (r.go_left_wrapping W).notes = r.notes := by
  unfold Row.go_left_wrapping Row.go_rightmost Row.go_left_unchecked
  split <;> rfl

theorem go_right_wrapping_loc (W : Nat) (r : Row) (h : r.loc < W) :
    (r.go_right_wrapping W).loc < W := by
  unfold Row.go_right_wrapping Row.go_leftmost Row.go_right_unchecked
  split
  · simp
    omega
  · rename_i hr
    simp only [Row.is_rightmost, decide_eq_true_eq] at hr
    simp
    omega

theorem go_left_wrapping_loc (W : Nat) (r : Row) (h : r.loc < W) :
    (r.go_left_wrapping W).loc < W := by
  unfold Row.go_left_wrapping Row.go_rightmost Row.go_left_unchecked
  split
  · simp
    omega
  · simp
    omega

theorem forcedRight_notes (W : Nat) :
    ∀ n r, (Row.forcedRight W n r).1.notes = r.notes := by
  intro n
  induction n with
  | zero => intro r; rfl
  | succ n ih =>
    intro r
    rw [Row.forcedRight]
    split
    · rfl
    · rw [ih]
      exact go_right_wrapping_notes W r

theorem forcedLeft_notes (W : Nat) :
    ∀ n r, (Row.forcedLeft W n r).1.notes = r.notes := by
  intro n
  induction n with
  | zero => intro r; rfl
  | succ n ih =>
    intro r
    rw [Row.forcedLeft]
    split
    · rfl
    · rw [ih]
      exact go_left_wrapping_notes W r

theorem forcedRight_loc (W : Nat) :
    ∀ n r, r.loc < W → (Row.forcedRight W n r).1.loc < W := by
  intro n
  induction n with
  | zero => intro r h; exact h
  | succ n ih =>
    intro r h
    rw [Row.forcedRight]
    split
    · exact h
    · exact ih _ (go_right_wrapping_loc W r h)

theorem forcedLeft_loc (W : Nat) :
    ∀ n r, r.loc < W → (Row.forcedLeft W n r).1.loc < W := by
  intro n
  induction n with
  | zero => intro r h; exact h
  | succ n ih =>
    intro r h
    rw [Row.forcedLeft]
    split
    · exact h
    · exact ih _ (go_left_wrapping_loc W r h)

theorem forcedRight_settled (W : Nat) :
    ∀ n r, (Row.forcedRight W n r).2 = true →
      (Row.forcedRight W n r).1.is_note_empty = true := by
  intro n
  induction n with
  | zero => intro r h; exact absurd h (by simp [Row.forcedRight])
  | succ n ih =>
    intro r h
    rw [Row.forcedRight] at h ⊢
    split at h
    · rename_i he
      simp [he]
    · rename_i he
      simp only [he, Bool.false_eq_true, if_false]
      exact ih _ h

theorem forcedLeft_settled (W : Nat) :
    ∀ n r, (Row.forcedLeft W n r).2 = true →
      (Row.forcedLeft W n r).1.is_note_empty = true := by
  intro n
  induction n with
  | zero => intro r h; exact absurd h (by simp [Row.forcedLeft])
  | succ n ih =>
    intro r h
    rw [Row.forcedLeft] at h ⊢
    split at h
    · rename_i he
      simp [he]
    · rename_i he
      simp only [he, Bool.false_eq_true, if_false]
      exact ih _ h

theorem freeRight_notes (W : Nat) (r : Row) :
    (Row.freeRight W r).1.notes = r.notes := by
  induction r using Row.freeRight.induct W with
  | case1 x hx => rw [Row.freeRight]; simp [hx]
  | case2 x hx hr => rw [Row.freeRight]; simp [hx, hr]
  | case3 x hx hr ih =>
    rw [Row.freeRight]
    simp only [hx, hr, Bool.false_eq_true, if_false]
    rw [ih]
    rfl

theorem freeLeft_notes (W : Nat) (r : Row) :
    (Row.freeLeft W r).1.notes = r.notes := by
  induction r using Row.freeLeft.induct W with
  | case1 x hx => rw [Row.freeLeft]; simp [hx]
  | case2 x hx hl => rw [Row.freeLeft]; simp [hx, hl]
  | case3 x hx hl ih =>
    rw [Row.freeLeft]
    simp only [hx, hl, Bool.false_eq_true, if_false]
    rw [ih]
    rfl

theorem freeRight_loc (W : Nat) (r : Row) (h : r.loc < W) :
    (Row.freeRight W r).1.loc < W := by
  induction r using Row.freeRight.induct W with
  | case1 x hx => rw [Row.freeRight]; simpa [hx] using h
  | case2 x hx hr => rw [Row.freeRight]; simpa [hx, hr] using h
  | case3 x hx hr ih =>
    rw [Row.freeRight]
    simp only [hx, hr, Bool.false_eq_true, if_false]
    apply ih
    simp only [Row.is_rightmost, decide_eq_true_eq] at hr
    simp only [Row.go_right_unchecked]
    omega

theorem freeLeft_loc (W : Nat) (r : Row) (h : r.loc < W) :
    (Row.freeLeft W r).1.loc < W := by
  induction r using Row.freeLeft.induct W with
  | case1 x hx => rw [Row.freeLeft]; simpa [hx] using h
  | case2 x hx hl => rw [Row.freeLeft]; simpa [hx, hl] using h
  | case3 x hx hl ih =>
    rw [Row.freeLeft]
    simp only [hx, hl, Bool.false_eq_true, if_false]
    apply ih
    simp only [Row.go_left_unchecked]
    omega

theorem freeRight_settled (W : Nat) (r : Row) :
    (Row.freeRight W r).2 = false → (Row.freeRight W r).1.is_note_empty = true := by
  induction r using Row.freeRight.induct W with
  | case1 x hx => rw [Row.freeRight]; simp [hx]
  | case2 x hx hr => rw [Row.freeRight]; simp [hx, hr]
  | case3 x hx hr ih =>
    rw [Row.freeRight]
    simp only [hx, hr, Bool.false_eq_true, if_false]
    exact ih

theorem freeLeft_settled (W : Nat) (r : Row) :
    (Row.freeLeft W r).2 = false → (Row.freeLeft W r).1.is_note_empty = true := by
  induction r using Row.freeLeft.induct W with
  | case1 x hx => rw [Row.freeLeft]; simp [hx]
  | case2 x hx hl => rw [Row.freeLeft]; simp [hx, hl]
  | case3 x hx hl ih =>
    rw [Row.freeLeft]
    simp only [hx, hl, Bool.false_eq_true, if_false]
    exact ih

theorem journeyOf_notes (W : Nat) (d : Direction) (r : Row) :
    (r.journeyOf W d).1.notes = r.notes := by
  cases d with
  | Right =>
    simp only [Row.journeyOf, Row.journey_right]
    rcases hf : Row.forcedRight W (minMargin W) r with ⟨r1, b⟩
    have hn : r1.notes = r.notes := by
      have := forcedRight_notes W (minMargin W) r
      rw [hf] at this
      exact this
    cases b
    · simpa [freeRight_notes W r1] using hn
    · simpa using hn
  | Left =>
    simp only [Row.journeyOf, Row.journey_left]
    rcases hf : Row.forcedLeft W (minMargin W) r with ⟨r1, b⟩
    have hn : r1.notes = r.notes := by
      have := forcedLeft_notes W (minMargin W) r
      rw [hf] at this
      exact this
    cases b
    · simpa [freeLeft_notes W r1] using hn
    · simpa using hn

theorem journeyOf_loc (W : Nat) (d : Direction) (r : Row) (h : r.loc < W) :
    (r.journeyOf W d).1.loc < W := by
  cases d with
  | Right =>
    simp only [Row.journeyOf, Row.journey_right]
    rcases hf : Row.forcedRight W (minMargin W) r with ⟨r1, b⟩
    have hl : r1.loc < W := by
      have := forcedRight_loc W (minMargin W) r h
      rw [hf] at this
      exact this
    cases b
    · simpa using freeRight_loc W r1 hl
    · simpa using hl
  | Left =>
    simp only [Row.journeyOf, Row.journey_left]
    rcases hf : Row.forcedLeft W (minMargin W) r with ⟨r1, b⟩
    have hl : r1.loc < W := by
      have := forcedLeft_loc W (minMargin W) r h
      rw [hf] at this
      exact this
    cases b
    · simpa using freeLeft_loc W r1 hl
    · simpa using hl

theorem journeyOf_settled (W : Nat) (d : Direction) (r : Row) :
    (r.journeyOf W d).2 = false → (r.journeyOf W d).1.is_note_empty = true := by
  cases d with
  | Right =>
    simp only [Row.journeyOf, Row.journey_right]
    rcases hf : Row.forcedRight W (minMargin W) r with ⟨r1, b⟩
    cases b
    · intro h
      exact freeRight_settled W r1 h
    · intro _
      have := forcedRight_settled W (minMargin W) r (by rw [hf])
      rw [hf] at this
      exact this
  | Left =>
    simp only [Row.journeyOf, Row.journey_left]
    rcases hf : Row.forcedLeft W (minMargin W) r with ⟨r1, b⟩
    cases b
    · intro h
      exact freeLeft_settled W r1 h
    · intro _
      have := forcedLeft_settled W (minMargin W) r (by rw [hf])
      rw [hf] at this
      exact this

/-!
### Equivalence of the code's journeys with the spec's movement rule

On any in-bounds row state (`loc < W`) the code's wrapping step, edge
test, forced phase and free phase coincide with the spec's wording of
them.
-/

theorem wrapStep_eq_right (W : Nat) (r : Row) (h : r.loc < W) :
    r.go_right_wrapping W = Spec.wrapStep W Direction.Right r := by
  unfold Row.go_right_wrapping Spec.wrapStep Row.go_leftmost Row.go_right_unchecked
  split
  · rename_i hr
    simp only [Row.is_rightmost, decide_eq_true_eq] at hr
    have hw : r.loc = W - 1 := by omega
    simp [hw]
  · rename_i hr
    simp only [Row.is_rightmost, decide_eq_true_eq] at hr
    have hw : ¬r.loc = W - 1 := by omega
    simp [hw]

theorem wrapStep_eq_left (W : Nat) (r : Row) (h : r.loc < W) :
    r.go_left_wrapping W = Spec.wrapStep W Direction.Left r := by
  unfold Row.go_left_wrapping Spec.wrapStep Row.go_rightmost Row.go_left_unchecked
  split
  · rename_i hl
    simp only [Row.is_leftmost, decide_eq_true_eq] at hl
    have hw : r.loc = 0 := by omega
    simp [hw]
  · rename_i hl
    simp only [Row.is_leftmost, decide_eq_true_eq] at hl
    have hw : ¬r.loc = 0 := by omega
    simp [hw]

theorem forced_eq_spec_right (W : Nat) :
    ∀ n r, r.loc < W → Row.forcedRight W n r = Spec.forced W Direction.Right n r := by
  intro n
  induction n with
  | zero => intro r _; rfl
  | succ n ih =>
    intro r h
    rw [Row.forcedRight, Spec.forced]
    split
    · rfl
    · rw [wrapStep_eq_right W r h]
      apply ih
      rw [← wrapStep_eq_right W r h]
      exact go_right_wrapping_loc W r h

theorem forced_eq_spec_left (W : Nat) :
    ∀ n r, r.loc < W → Row.forcedLeft W n r = Spec.forced W Direction.Left n r := by
  intro n
  induction n with
  | zero => intro r _; rfl
  | succ n ih =>
    intro r h
    rw [Row.forcedLeft, Spec.forced]
    split
    · rfl
    · rw [wrapStep_eq_left W r h]
      apply ih
      rw [← wrapStep_eq_left W r h]
      exact go_left_wrapping_loc W r h

theorem free_eq_spec_right (W : Nat) :
    ∀ r : Row, r.loc < W → Row.freeRight W r = Spec.free W Direction.Right r := by
  intro r
  induction r using Row.freeRight.induct W with
  | case1 x hx =>
    intro _
    rw [Row.freeRight, Spec.free]
    simp [hx]
  | case2 x hx hr =>
    intro h
    rw [Row.freeRight, Spec.free]
    have he : Spec.atEdge W Direction.Right x = true := by
      simp only [Row.is_rightmost, decide_eq_true_eq] at hr
      simp only [Spec.atEdge, decide_eq_true_eq]
      omega
    simp [hx, hr, he]
  | case3 x hx hr ih =>
    intro h
    rw [Row.freeRight, Spec.free]
    have he : Spec.atEdge W Direction.Right x = false := by
      simp only [Row.is_rightmost, decide_eq_true_eq] at hr
      simp only [Spec.atEdge, decide_eq_false_iff_not]
      omega
    simp only [hx, hr, he, Bool.false_eq_true, if_false]
    have hx1 : x.go_right_unchecked.loc < W := by
      simp only [Row.is_rightmost, decide_eq_true_eq] at hr
      simp only [Row.go_right_unchecked]
      omega
    exact ih hx1

theorem free_eq_spec_left (W : Nat) :
    ∀ r : Row, r.loc < W → Row.freeLeft W r = Spec.free W Direction.Left r := by
  intro r
  induction r using Row.freeLeft.induct W with
  | case1 x hx =>
    intro _
    rw [Row.freeLeft, Spec.free]
    simp [hx]
  | case2 x hx hl =>
    intro h
    rw [Row.freeLeft, Spec.free]
    have he : Spec.atEdge W Direction.Left x = true := by
      simp only [Row.is_leftmost, decide_eq_true_eq] at hl
      simp only [Spec.atEdge, decide_eq_true_eq]
      omega
    simp [hx, hl, he]
  | case3 x hx hl ih =>
    intro h
    rw [Row.freeLeft, Spec.free]
    have he : Spec.atEdge W Direction.Left x = false := by
      simp only [Row.is_leftmost, decide_eq_true_eq] at hl
      simp only [Spec.atEdge, decide_eq_false_iff_not]
      omega
    simp only [hx, hl, he, Bool.false_eq_true, if_false]
    have hx1 : x.go_left_unchecked.loc < W := by
      simp only [Row.go_left_unchecked]
      omega
    exact ih hx1

/-!
### Reachable-state invariant

At every observable state of a walk the live row has exactly `W` notes,
its cursor is a valid index, and the cell under the cursor is Empty — so
the next `set_note` always writes into an Empty cell (each cell of a row
instance is written at most once).
-/

/-- The live-row invariant: well-formed width, in-bounds cursor, and an
Empty cell under the cursor. -/
def CursorOnEmpty (W : Nat) (r : Row) : Prop :=
  r.notes.length = W ∧ r.loc < W ∧ r.notes.getD r.loc Note.Empty = Note.Empty

instance (W : Nat) (r : Row) : Decidable (CursorOnEmpty W r) := by
  unfold CursorOnEmpty
  infer_instance

theorem getD_replicate_empty (W i : Nat) :
    (List.replicate W Note.Empty).getD i Note.Empty = Note.Empty := by
  rcases Nat.lt_or_ge i W with h | h
  · rw [List.getD_eq_getElem _ _ (by simpa using h)]
    simp
  · rw [List.getD_eq_default]
    simpa using h

theorem new_inv (W loc : Nat) (h : loc < W) : CursorOnEmpty W (Row.new W loc) :=
  ⟨by simp [Row.new], h, getD_replicate_empty W loc⟩

theorem goInstr_none_inv (W : Nat) (r : Row) (d : Direction) (s : Style)
    (row1 : Row) (hI : CursorOnEmpty W r)
    (h : Row.goInstr W r d s = (none, row1)) : CursorOnEmpty W row1 := by
  obtain ⟨hlen, hloc, _⟩ := hI
  simp only [Row.goInstr] at h
  split at h
  · simp at h
  · rename_i hjr
    cases h
    refine ⟨?_, ?_, ?_⟩
    · rw [journeyOf_notes]
      simpa [Row.set_note] using hlen
    · apply journeyOf_loc
      simpa [Row.set_note] using hloc
    · have hs := journeyOf_settled W d (r.set_note (Note.Full d s))
        (by simpa using hjr)
      simpa [Row.is_note_empty] using hs

theorem goInstr_some_inv (W : Nat) (r : Row) (d : Direction) (s : Style)
    (out newRow : Row) (hI : CursorOnEmpty W r)
    (h : Row.goInstr W r d s = (some out, newRow)) :
    CursorOnEmpty W newRow ∧ out.notes.length = W ∧ out.loc < W := by
  obtain ⟨hlen, hloc, _⟩ := hI
  have hnew := goInstr_some_row W r d s out newRow h
  subst hnew
  refine ⟨new_inv W r.loc hloc, ?_, ?_⟩
  · simp only [Row.goInstr] at h
    split at h
    · cases h
      rw [journeyOf_notes]
      simpa [Row.set_note] using hlen
    · simp at h
  · simp only [Row.goInstr] at h
    split at h
    · cases h
      apply journeyOf_loc
      simpa [Row.set_note] using hloc
    · simp at h

theorem nextLoop_inv (W : Nat) :
    ∀ bytes row res, CursorOnEmpty W row → Dive.nextLoop W bytes row = res →
      CursorOnEmpty W res.2.row ∧
      (∀ o, res.1 = some o → o.notes.length = W ∧ o.loc < W) := by
  intro bytes
  induction bytes with
  | nil =>
    intro row res hI h
    rw [Dive.nextLoop] at h
    split at h
    · cases h
      exact ⟨hI, by simp⟩
    · cases h
      refine ⟨new_inv W row.loc hI.2.1, ?_⟩
      intro o ho
      cases ho
      exact ⟨hI.1, hI.2.1⟩
  | cons b rest ih =>
    intro row res hI h
    rw [Dive.nextLoop] at h
    split at h
    · rename_i out1 newRow heq
      cases h
      obtain ⟨hn, ho1, ho2⟩ := goInstr_some_inv W row _ _ _ _ hI heq
      refine ⟨hn, ?_⟩
      intro o ho
      cases ho
      exact ⟨ho1, ho2⟩
    · rename_i row1 heq
      have h1 := goInstr_none_inv W row _ _ _ hI heq
      split at h
      · rename_i out2 newRow2 heq2
        cases h
        obtain ⟨hn, ho1, ho2⟩ := goInstr_some_inv W row1 _ _ _ _ h1 heq2
        refine ⟨hn, ?_⟩
        intro o ho
        cases ho
        exact ⟨ho1, ho2⟩
      · rename_i row2 heq2
        exact ih _ res (goInstr_none_inv W row1 _ _ _ h1 heq2) h

theorem next_inv (W : Nat) (dv : Dive) (res : Option Row × Dive)
    (hI : CursorOnEmpty W dv.row) (h : Dive.next W dv = res) :
    CursorOnEmpty W res.2.row ∧
    (∀ o, res.1 = some o → o.notes.length = W ∧ o.loc < W) := by
  rcases dv with ⟨iter, row, buffered⟩
  cases buffered with
  | none =>
    simp only [Dive.next] at h
    exact nextLoop_inv W iter row res hI h
  | some ds =>
    rcases ds with ⟨d, s⟩
    simp only [Dive.next] at h
    split at h
    · rename_i out1 newRow heq
      cases h
      obtain ⟨hn, ho1, ho2⟩ := goInstr_some_inv W row d s _ _ hI heq
      refine ⟨hn, ?_⟩
      intro o ho
      cases ho
      exact ⟨ho1, ho2⟩
    · rename_i row1 heq
      have h1 := goInstr_none_inv W row d s _ hI heq
      exact nextLoop_inv W iter row1 res h1 h

theorem iterState_inv_aux (W : Nat) :
    ∀ n dv, CursorOnEmpty W dv.row → CursorOnEmpty W (iterState W n dv).row := by
  intro n
  induction n with
  | zero => intro dv h; exact h
  | succ n ih =>
    intro dv h
    rw [iterState]
    exact ih _ (next_inv W dv _ h rfl).1

theorem fromBytes_inv (W : Nat) (bytes : List Nat) (hW : 1 ≤ W) :
    CursorOnEmpty W (Dive.fromBytes W bytes).row :=
  new_inv W (W / 2) (Nat.div_lt_self (by omega) (by omega))

/-!
### Draining the walk
-/

theorem drain_next_none (W : Nat) (dv snd : Dive)
    (h : Dive.next W dv = (none, snd)) : Dive.drain W dv = [] := by
  rw [Dive.drain]
  split
  · rfl
  · rename_i out2 dv2 heq
    rw [h] at heq
    simp at heq

theorem drain_next_some (W : Nat) (dv : Dive) (out : Row) (dv2 : Dive)
    (h : Dive.next W dv = (some out, dv2)) :
    Dive.drain W dv = out :: Dive.drain W dv2 := by
  rw [Dive.drain]
  split
  · rename_i snd heq
    rw [h] at heq
    simp at heq
  · rename_i out2 dv2' heq
    rw [h] at heq
    rw [Prod.mk.injEq, Option.some.injEq] at heq
    obtain ⟨h1, h2⟩ := heq
    subst h1
    subst h2
    rfl

theorem drain_rows (W : Nat) :
    ∀ dv : Dive, CursorOnEmpty W dv.row →
      ∀ o ∈ Dive.drain W dv, o.notes.length = W ∧ o.loc < W := by
  intro dv
  induction dv using Dive.drain.induct W with
  | case1 x snd h =>
    intro _ o ho
    rw [drain_next_none W x snd h] at ho
    simp at ho
  | case2 x out dv2 h ih =>
    intro hI o ho
    rw [drain_next_some W x out dv2 h] at ho
    have hn := next_inv W x (some out, dv2) hI h
    rcases List.mem_cons.mp ho with rfl | hmem
    · exact hn.2 o rfl
    · exact ih hn.1 o hmem

theorem drain_length_le_mu (W : Nat) :
    ∀ dv : Dive, (Dive.drain W dv).length ≤ Dive.mu W dv := by
  intro dv
  induction dv using Dive.drain.induct W with
  | case1 x snd h =>
    rw [drain_next_none W x snd h]
    simp
  | case2 x out dv2 h ih =>
    rw [drain_next_some W x out dv2 h]
    simp only [List.length_cons]
    have := next_some_mu W x out dv2 h
    omega

theorem next_fromBytes_nil (W : Nat) :
    Dive.next W (Dive.fromBytes W []) = (none, Dive.fromBytes W []) := by
  simp [Dive.next, Dive.fromBytes, Dive.nextLoop, is_empty_new]

theorem drain_fromBytes_nil (W : Nat) : Dive.drain W (Dive.fromBytes W []) = [] :=
  drain_next_none W _ _ (next_fromBytes_nil W)

/-!
### The claims
-/

/-- The byte decoder exactly as claim C1 words it: bit 0 (resp. bit 4)
with value 1 meaning Right and 0 meaning Left, styles from bits 1-3 and
5-7.  Stated only to be compared against the code's decoder. -/
def claimDecodeC1 (byte : Nat) : (Direction × Style) × (Direction × Style) :=
  ((if byte % 2 = 1 then Direction.Right else Direction.Left,
    Style.ofU3 ((byte / 2) % 8)),
   (if (byte / 16) % 2 = 1 then Direction.Right else Direction.Left,
    Style.ofU3 ((byte / 32) % 8)))

/-- The byte decoder with the direction polarity the code actually uses:
bit value 0 means Right and 1 means Left, styles unchanged. -/
def amendedDecodeC1 (byte : Nat) : (Direction × Style) × (Direction × Style) :=
  ((if byte % 2 = 0 then Direction.Right else Direction.Left,
    Style.ofU3 ((byte / 2) % 8)),
   (if (byte / 16) % 2 = 0 then Direction.Right else Direction.Left,
    Style.ofU3 ((byte / 32) % 8)))

/-- C1, counterexample: on byte 1 (bit 0 set) the code's decoder yields
Left for instruction 1, and on byte 16 (bit 4 set) it yields Left for
instruction 2 — not Right as the claim's polarity says. -/
theorem c1_counterexample :
    DSPair.ofByte 1 ≠ claimDecodeC1 1 ∧
    DSPair.ofByte 16 ≠ claimDecodeC1 16 ∧
    (DSPair.ofByte 1).1.1 = Direction.Left ∧
    (DSPair.ofByte 16).2.1 = Direction.Left := by
  decide

set_option maxRecDepth 8000 in
/-- C1 as amended: for every 8-bit byte, decoding is total and produces
exactly the two (Direction, Style) pairs given by the bit layout with the
polarity reversed — bit 0 (resp. bit 4) value 0 means Right and 1 means
Left; instruction 1 takes its style from bits 1-3 and instruction 2 from
bits 5-7, enumerated as Style0..Style7. -/
theorem c1_decoder_amended : ∀ b, b < 256 → DSPair.ofByte b = amendedDecodeC1 b := by
  decide

/-- Witness for C1's amended theorem at byte 37. -/
theorem c1_decoder_amended_witness : DSPair.ofByte 37 = amendedDecodeC1 37 :=
  c1_decoder_amended 37 (by decide)

/-- C2: on every in-bounds row state, for both directions and every
width, the code's journey (margin-many forced wrapping advances that stop
on an Empty cell, then the free phase that settles on Empty, descends at
the edge in the direction of travel without wrapping, and otherwise
advances without wrapping) equals the spec's movement rule with
margin = WIDTH/8. -/
theorem c2_movement_rule (W : Nat) (d : Direction) (r : Row) (h : r.loc < W) :
    Row.journeyOf W d r = Spec.journey W d r := by
  cases d with
  | Right =>
    simp only [Row.journeyOf, Row.journey_right, Spec.journey, minMargin]
    have hloc := forcedRight_loc W (W / 8) r h
    rw [forced_eq_spec_right W (W / 8) r h] at hloc ⊢
    rcases hf : Spec.forced W Direction.Right (W / 8) r with ⟨r1, b⟩
    rw [hf] at hloc
    cases b
    · exact free_eq_spec_right W r1 hloc
    · rfl
  | Left =>
    simp only [Row.journeyOf, Row.journey_left, Spec.journey, minMargin]
    have hloc := forcedLeft_loc W (W / 8) r h
    rw [forced_eq_spec_left W (W / 8) r h] at hloc ⊢
    rcases hf : Spec.forced W Direction.Left (W / 8) r with ⟨r1, b⟩
    rw [hf] at hloc
    cases b
    · exact free_eq_spec_left W r1 hloc
    · rfl

/-- Witness for C2 at width 1 on a one-cell empty row. -/
theorem c2_movement_rule_witness :
    Row.journeyOf 1 Direction.Right ⟨[Note.Empty], 0⟩ =
      Spec.journey 1 Direction.Right ⟨[Note.Empty], 0⟩ :=
  c2_movement_rule 1 Direction.Right ⟨[Note.Empty], 0⟩ (by decide)

/-- C5, counterexample: the code renders Right/Style6, Right/Style7,
Left/Style6, Left/Style7 as `+`, `U`, `T`, `A` — not as the `p`, `b`,
`q`, `d` the claim lists. -/
theorem c5_counterexample :
    Note.display (Note.Full Direction.Right Style.Style6) ≠ 'p' ∧
    Note.display (Note.Full Direction.Right Style.Style7) ≠ 'b' ∧
    Note.display (Note.Full Direction.Left Style.Style6) ≠ 'q' ∧
    Note.display (Note.Full Direction.Left Style.Style7) ≠ 'd' := by
  decide

/-- C5 as amended: Empty renders as a space and the sixteen Full notes
render as sixteen distinct single characters — Right styles 0-7 as
`>`, `.`, `*`, `o`, `x`, `)`, `+`, `U` and Left styles 0-7 as
`<`, `~`, `=`, `_`, `!`, `(`, `T`, `A`. -/
theorem c5_glyph_table_amended :
    Note.display Note.Empty = ' ' ∧
    ([Style.Style0, Style.Style1, Style.Style2, Style.Style3,
      Style.Style4, Style.Style5, Style.Style6, Style.Style7].map
        (fun s => Note.display (Note.Full Direction.Right s))) =
      ['>', '.', '*', 'o', 'x', ')', '+', 'U'] ∧
    ([Style.Style0, Style.Style1, Style.Style2, Style.Style3,
      Style.Style4, Style.Style5, Style.Style6, Style.Style7].map
        (fun s => Note.display (Note.Full Direction.Left s))) =
      ['<', '~', '=', '_', '!', '(', 'T', 'A'] ∧
    (['>', '.', '*', 'o', 'x', ')', '+', 'U',
      '<', '~', '=', '_', '!', '(', 'T', 'A'] : List Char).Nodup := by
  refine ⟨rfl, rfl, rfl, by decide⟩

theorem goInstr_some_out_notes (W : Nat) (r : Row) (d : Direction) (s : Style)
    (out newRow : Row) (h : Row.goInstr W r d s = (some out, newRow)) :
    out.notes = (r.set_note (Note.Full d s)).notes := by
  simp only [Row.goInstr] at h
  split at h
  · cases h
    exact journeyOf_notes W d _
  · simp at h

theorem goInstr_none_out_notes (W : Nat) (r : Row) (d : Direction) (s : Style)
    (row1 : Row) (h : Row.goInstr W r d s = (none, row1)) :
    row1.notes = (r.set_note (Note.Full d s)).notes := by
  simp only [Row.goInstr] at h
  split at h
  · simp at h
  · cases h
    exact journeyOf_notes W d _

theorem set_note_getD (r : Row) (n : Note) (h : r.loc < r.notes.length) :
    (r.set_note n).notes.getD r.loc Note.Empty = n := by
  simp only [Row.set_note]
  rw [List.getD_eq_getElem _ _ (by simpa using h)]
  simp [List.getElem_set]

/-- C3: applying one instruction writes `Full(d, s)` at the live row's
current cursor and then runs the movement rule.  On descent the produced
row carries the written note, the live row is replaced by a brand-new
empty row whose cursor is the column just written (home), and nothing
else of the Dive state changes; on settle the live row carries the
written note and nothing else changes.  At construction the Row has
cursor WIDTH/2, all cells Empty, and no buffered instruction. -/
theorem c3_apply_and_init (W : Nat) (dv : Dive) (d : Direction) (s : Style)
    (hloc : dv.row.loc < W) (hlen : dv.row.notes.length = W) :
    (∀ out dv2, Dive.go W dv d s = (some out, dv2) →
        out.notes.getD dv.row.loc Note.Empty = Note.Full d s ∧
        dv2.row = Row.new W dv.row.loc ∧
        dv2.iter = dv.iter ∧ dv2.buffered = dv.buffered) ∧
    (∀ dv2, Dive.go W dv d s = (none, dv2) →
        dv2.row.notes.getD dv.row.loc Note.Empty = Note.Full d s ∧
        dv2.iter = dv.iter ∧ dv2.buffered = dv.buffered) ∧
    (∀ bytes, Dive.fromBytes W bytes =
        ⟨bytes, ⟨List.replicate W Note.Empty, W / 2⟩, none⟩) := by
  have hset : (dv.row.set_note (Note.Full d s)).notes.getD dv.row.loc Note.Empty =
      Note.Full d s := set_note_getD dv.row _ (by omega)
  refine ⟨?_, ?_, fun bytes => rfl⟩
  · intro out dv2 hgo
    rcases hgi : Row.goInstr W dv.row d s with ⟨o, r⟩
    simp only [Dive.go, hgi] at hgo
    cases hgo
    have hn := goInstr_some_out_notes W dv.row d s out r hgi
    refine ⟨by rw [hn]; exact hset, ?_, rfl, rfl⟩
    have := goInstr_some_row W dv.row d s out r hgi
    simpa using this
  · intro dv2 hgo
    rcases hgi : Row.goInstr W dv.row d s with ⟨o, r⟩
    simp only [Dive.go, hgi] at hgo
    cases hgo
    have hn := goInstr_none_out_notes W dv.row d s r hgi
    exact ⟨by rw [hn]; exact hset, rfl, rfl⟩

/-- Witness for C3: at width 1 on the initial state, applying a Right
instruction descends immediately; the produced row holds the written
note at home column 0 and the fresh live row starts at home. -/
theorem c3_apply_and_init_witness :
    (⟨[Note.Full Direction.Right Style.Style0], 0⟩ : Row).notes.getD 0 Note.Empty =
      Note.Full Direction.Right Style.Style0 ∧
    (⟨[], Row.new 1 0, none⟩ : Dive).row = Row.new 1 0 := by
  have hgo : Dive.go 1 (Dive.fromBytes 1 []) Direction.Right Style.Style0 =
      (some ⟨[Note.Full Direction.Right Style.Style0], 0⟩, ⟨[], Row.new 1 0, none⟩) := by
    simp [Dive.go, Row.goInstr, Row.journeyOf, Row.journey_right, Row.forcedRight,
      Row.freeRight, minMargin, Dive.fromBytes, Row.new, Row.set_note,
      Row.is_note_empty, Row.is_rightmost]
  have h := (c3_apply_and_init 1 (Dive.fromBytes 1 []) Direction.Right Style.Style0
    (by decide) (by decide)).1 _ _ hgo
  exact ⟨h.1, h.2.1⟩

/-- C4: with the byte source exhausted (and nothing buffered), if the
live row has never been written (fully Empty) the iterator yields None
now and forever after; otherwise it yields exactly the live row as-is
(with its current cursor), and every later call yields None. -/
theorem c4_exhausted_source (W : Nat) (row : Row) :
    (row.is_empty W = true →
      ∀ n, Dive.next W (iterState W n ⟨[], row, none⟩) = (none, ⟨[], row, none⟩)) ∧
    (row.is_empty W = false →
      Dive.next W ⟨[], row, none⟩ = (some row, ⟨[], Row.new W row.loc, none⟩) ∧
      ∀ n, Dive.next W (iterState W n ⟨[], Row.new W row.loc, none⟩) =
        (none, ⟨[], Row.new W row.loc, none⟩)) := by
  have hfix : ∀ r : Row, r.is_empty W = true →
      Dive.next W ⟨[], r, none⟩ = (none, ⟨[], r, none⟩) := by
    intro r hr
    simp [Dive.next, Dive.nextLoop, hr]
  have hstuck : ∀ r : Row, r.is_empty W = true →
      ∀ n, iterState W n ⟨[], r, none⟩ = ⟨[], r, none⟩ := by
    intro r hr n
    induction n with
    | zero => rfl
    | succ n ih =>
      rw [iterState, hfix r hr]
      exact ih
  constructor
  · intro hr n
    rw [hstuck row hr n]
    exact hfix row hr
  · intro hr
    constructor
    · simp [Dive.next, Dive.nextLoop, hr]
    · intro n
      rw [hstuck _ (is_empty_new W row.loc) n]
      exact hfix _ (is_empty_new W row.loc)

/-- Witness for C4 at width 1: a written one-cell row is flushed as-is. -/
theorem c4_exhausted_source_witness :
    Dive.next 1 ⟨[], ⟨[Note.Full Direction.Right Style.Style0], 0⟩, none⟩ =
      (some ⟨[Note.Full Direction.Right Style.Style0], 0⟩,
       ⟨[], Row.new 1 0, none⟩) :=
  ((c4_exhausted_source 1 ⟨[Note.Full Direction.Right Style.Style0], 0⟩).2
    (by decide)).1

theorem routeOf_nil (W : Nat) : Route.ofDive W (Dive.fromBytes W []) = ⟨[], W / 2⟩ := by
  simp [Route.ofDive, drain_fromBytes_nil]

/-- C6, counterexample: for WIDTH 16 and an empty byte source, the
bottom border of the render carries `-` at character index 8 and its `v`
marker at index 9, so the `v` is not at column 8 on both borders under
any single indexing convention (the top border's `v` is at index 8). -/
theorem c6_counterexample :
    ((Route.render 16 (Route.ofDive 16 (Dive.fromBytes 16 []))).getD 1 []).getD 8 ' ' = '-' ∧
    ((Route.render 16 (Route.ofDive 16 (Dive.fromBytes 16 []))).getD 1 []).getD 9 ' ' = 'v' := by
  rw [routeOf_nil]
  decide

/-- C6 as amended: for every WIDTH an empty byte source yields a Route
with zero rows and closing cursor WIDTH/2; for WIDTH 16 the render is
exactly a top border and a bottom border with no interior rows, the top
border's `v` at character index 8 and the bottom border's `v` at
character index 9 (0-based). -/
theorem c6_empty_input_amended :
    (∀ W, Route.ofDive W (Dive.fromBytes W []) = ⟨[], W / 2⟩) ∧
    Route.render 16 (Route.ofDive 16 (Dive.fromBytes 16 [])) =
      [topBorder 16, bottomBorder 16 8] ∧
    (topBorder 16).getD 8 ' ' = 'v' ∧
    (bottomBorder 16 8).getD 9 ' ' = 'v' := by
  refine ⟨routeOf_nil, ?_, by decide, by decide⟩
  rw [routeOf_nil]
  decide

/-- C7: for every WIDTH at least 1 and every byte sequence, at every
observable state of the walk the live row has exactly WIDTH cells, its
cursor is in [0, WIDTH), and the cell under the cursor is Empty; and a
single instruction application preserves this invariant.  Since every
write (`set_note` inside Dive::go) happens at the cursor of a state
satisfying the invariant, each write targets an Empty cell, so no cell
of any row instance is ever written twice. -/
theorem c7_invariants (W : Nat) (hW : 1 ≤ W) (bytes : List Nat) (n : Nat) :
    CursorOnEmpty W (iterState W n (Dive.fromBytes W bytes)).row ∧
    (∀ r d s row1, CursorOnEmpty W r → Row.goInstr W r d s = (none, row1) →
        CursorOnEmpty W row1) ∧
    (∀ r d s out newRow, CursorOnEmpty W r →
        Row.goInstr W r d s = (some out, newRow) → CursorOnEmpty W newRow) :=
  ⟨iterState_inv_aux W n _ (fromBytes_inv W bytes hW),
   fun r d s row1 hI h => goInstr_none_inv W r d s row1 hI h,
   fun r d s out newRow hI h => (goInstr_some_inv W r d s out newRow hI h).1⟩

/-- Witness for C7 at width 1 with no input after zero steps. -/
theorem c7_invariants_witness :
    CursorOnEmpty 1 (iterState 1 0 (Dive.fromBytes 1 [])).row :=
  (c7_invariants 1 (by decide) [] 0).1

/-- C8: the walk is a total function on finite byte sequences (the drain
below is structurally terminating), and the number of rows it produces
is at most 2 times the number of bytes consumed — one bound per decoded
instruction. -/
theorem c8_termination_bound (W : Nat) (bytes : List Nat) :
    (Dive.drain W (Dive.fromBytes W bytes)).length ≤ 2 * bytes.length := by
  have h := drain_length_le_mu W (Dive.fromBytes W bytes)
  have hmu : Dive.mu W (Dive.fromBytes W bytes) = 2 * bytes.length := by
    simp [Dive.mu, Dive.fromBytes, is_empty_new]
  omega

/-- C9, counterexample: construction with WIDTH 0 is not rejected — it
returns an ordinary Dive state over a zero-length note array — and the
very first write would index position 0 of that zero-length array (the
out-of-bounds panic surfaces mid-walk, not at construction). -/
theorem c9_counterexample :
    Dive.fromBytes 0 [0] = ⟨[0], ⟨[], 0⟩, none⟩ ∧
    ¬(Dive.fromBytes 0 [0]).row.loc < (Dive.fromBytes 0 [0]).row.notes.length := by
  decide

/-- C9 as amended: construction performs no width validation — for every
width, including 0, it returns the same-shaped state — and with WIDTH 0
the failure surfaces during walking: the cursor of the live row is not a
valid index, so the first `set_note` is an out-of-bounds write (a runtime
panic in the source). -/
theorem c9_no_construction_check (W : Nat) (bytes : List Nat) :
    Dive.fromBytes W bytes = ⟨bytes, ⟨List.replicate W Note.Empty, W / 2⟩, none⟩ ∧
    (W = 0 →
      ¬(Dive.fromBytes W bytes).row.loc < (Dive.fromBytes W bytes).row.notes.length) := by
  refine ⟨rfl, ?_⟩
  intro h
  subst h
  simp [Dive.fromBytes, Row.new]

/-- Witness for C9's amended theorem at width 0. -/
theorem c9_no_construction_check_witness :
    ¬(Dive.fromBytes 0 [7]).row.loc < (Dive.fromBytes 0 [7]).row.notes.length :=
  (c9_no_construction_check 0 [7]).2 rfl

theorem ending_lt (W : Nat) (bytes : List Nat) (hW : 1 ≤ W) :
    (Route.ofDive W (Dive.fromBytes W bytes)).ending < W := by
  have hend : (Route.ofDive W (Dive.fromBytes W bytes)).ending =
      (((Dive.drain W (Dive.fromBytes W bytes)).getLast?).map Row.loc).getD (W / 2) := rfl
  rw [hend]
  rcases hlast : (Dive.drain W (Dive.fromBytes W bytes)).getLast? with _ | r
  · simp only [Option.map_none', Option.getD_none]
    exact Nat.div_lt_self (by omega) (by omega)
  · simp only [Option.map_some', Option.getD_some]
    have hmem : r ∈ Dive.drain W (Dive.fromBytes W bytes) := by
      obtain ⟨hne, heq⟩ := List.mem_getLast?_eq_getLast (x := r) hlast
      rw [heq]
      exact List.getLast_mem hne
    exact (drain_rows W _ (fromBytes_inv W bytes hW) r hmem).2

/-- C10: for every WIDTH at least 2 and every byte sequence, every line
of the rendered Route — top border, each interior row line, and bottom
border — has exactly WIDTH + 2 characters; and at WIDTH 1 this fails
(the top border there has 4 characters, not 3). -/
theorem c10_line_lengths :
    (∀ W bytes, 2 ≤ W →
      (Route.render W (Route.ofDive W (Dive.fromBytes W bytes))).all
        (fun l => l.length == W + 2) = true) ∧
    (topBorder 1).length ≠ 1 + 2 := by
  refine ⟨?_, by decide⟩
  intro W bytes hW
  rw [List.all_eq_true]
  intro l hl
  rw [beq_iff_eq]
  have hW2 : 1 ≤ W / 2 := by omega
  have hWd : W / 2 ≤ W := Nat.div_le_self W 2
  simp only [Route.render, List.mem_cons, List.mem_append, List.mem_map,
    List.mem_singleton] at hl
  rcases hl with rfl | ⟨r, hr, rfl⟩ | rfl | hfalse
  · simp only [topBorder, List.length_cons, List.length_append,
      List.length_replicate, List.length_singleton, List.length_nil]
    omega
  · have hrow : r.notes.length = W := by
      have hR : (Route.ofDive W (Dive.fromBytes W bytes)).route =
          Dive.drain W (Dive.fromBytes W bytes) := rfl
      rw [hR] at hr
      exact (drain_rows W _ (fromBytes_inv W bytes (by omega)) r hr).1
    simp only [Row.render, List.length_cons, List.length_append,
      List.length_map, List.length_singleton, List.length_nil, hrow]
  · have he := ending_lt W bytes (by omega)
    simp only [bottomBorder, List.length_cons, List.length_append,
      List.length_replicate, List.length_singleton, List.length_nil]
    omega
  · exact absurd hfalse (by simp)

/-- Witness for C10 at width 2 with an empty byte source. -/
theorem c10_line_lengths_witness :
    (Route.render 2 (Route.ofDive 2 (Dive.fromBytes 2 []))).all
      (fun l => l.length == 2 + 2) = true :=
  c10_line_lengths.1 2 [] (by decide)

end DrunkenDiver
